import Mathlib

/-!
Shallow embedding of the beam-profile analysis functions of
cam_server/pipeline/data_processing/functions.py.

Images and profiles are lists of rationals (pixel values), axes are lists of
rationals (physical coordinates).  The floating-point irrationals (pi, sqrt,
exp) and the external iterative solvers (scipy.optimize.curve_fit,
numpy.polyfit) are abstracted as parameters collected in a FloatOps record;
a solver that fails to converge or raises is modelled as returning none.
Fallible numpy reductions (min, max, argmax raise on an empty array) are
modelled with Except.  Machine integers of the uint16 image buffer are
modelled as mathematical integers with an explicit mod 2^16.
-/

/-- Element access with default 0, modelling numpy integer indexing of a
rational valued 1D array (every use below is either checked or proved to be
in range). -/
def nthQ (xs : List ℚ) (i : ℕ) : ℚ := xs.getD i 0

/-- Element access with default 0 for integer lists. -/
def nthZ (xs : List ℤ) (i : ℕ) : ℤ := xs.getD i 0

/-- numpy min of a 1D array; raises on an empty array. -/
def listMin : List ℚ → Except String ℚ
  | [] => .error "zero-size array to reduction operation minimum"
  | x :: xs => .ok (xs.foldl min x)

/-- numpy max of a 1D array; raises on an empty array. -/
def listMax : List ℚ → Except String ℚ
  | [] => .error "zero-size array to reduction operation maximum"
  | x :: xs => .ok (xs.foldl max x)

/-- Helper for argmax: fold over the tail keeping the first index of the
strictly largest value seen so far (numpy argmax returns the first index of
the maximum). -/
def argmaxAux : List ℚ → ℕ → ℕ → ℚ → ℕ
  | [], _, bi, _ => bi
  | v :: t, i, bi, bv =>
      if bv < v then argmaxAux t (i + 1) i v else argmaxAux t (i + 1) bi bv

/-- numpy argmax of a 1D array; raises on an empty array. -/
def argmaxE : List ℚ → Except String ℕ
  | [] => .error "attempt to get argmax of an empty sequence"
  | v :: t => .ok (argmaxAux t 1 0 v)

/-- Total variant of argmax, used where nonemptiness is structural. -/
def argmaxD : List ℚ → ℕ
  | [] => 0
  | v :: t => argmaxAux t 1 0 v

/-- numpy trapz y against x: sum of (x i+1 - x i) * (y i + y i+1) / 2. -/
def trapz : List ℚ → List ℚ → ℚ
  | y0 :: y1 :: ys, x0 :: x1 :: xs =>
      (x1 - x0) * (y0 + y1) / 2 + trapz (y1 :: ys) (x1 :: xs)
  | _, _ => 0

/-- Left insertion point of numpy searchsorted on a sorted 1D array: the
number of elements strictly below the searched value (the binary search of
numpy computes exactly this on sorted input, which is the only way the code
calls it). -/
def searchsorted (axis : List ℚ) (item : ℚ) : ℕ :=
  axis.countP (fun x => decide (x < item))

/-- External floating-point collaborators of functions.py, abstracted:
sqrt and exp as real functions, the constant pi, the iterative nonlinear
least squares solver scipy.optimize.curve_fit (none when it fails to
converge or raises), and the weighted polynomial fit numpy.polyfit. -/
structure FloatOps where
  sqrt : ℚ → ℚ
  exp : ℚ → ℚ
  pi : ℚ
  curve_fit : List ℚ → List ℚ → ℚ × ℚ × ℚ × ℚ → Option (ℚ × ℚ × ℚ × ℚ)
  polyfit : List ℚ → List ℚ → ℕ → List ℚ → List ℚ

/-- A concrete instance of the abstract collaborators whose nonlinear solver
always fails, used to evaluate the embedding on concrete inputs. -/
def trivialOps : FloatOps :=
  { sqrt := fun q => q
    exp := fun q => q
    pi := 3
    curve_fit := fun _ _ _ => none
    polyfit := fun _ _ _ _ => [] }

/-- subtract_background of functions.py: the mask of positions where the
background exceeds the image is taken on the original values, the background
is cast to uint16, the subtraction is performed into the uint16 image buffer
(wrapping modulo 2^16), and the masked positions are then forced to 0.
Images are flattened to their element lists; the shape check becomes a
length check. -/
def subtract_background (image background_image : List ℤ) :
    Except String (List ℤ) :=
  if image.length ≠ background_image.length then
    .error "Invalid background_image size compared to image"
  else
    .ok (List.zipWith
      (fun a b => if b > a then 0 else (a - b % 65536) % 65536)
      image background_image)

/-- find_index of functions.py: direction detected from the first two
elements; out-of-range values clamp to 0 or to the last index; otherwise a
binary-search insertion point is used, on the negated axis and value for a
descending axis (where the insertion point is returned directly), and with
an exact-match check and a decrement on an ascending axis.  Accessing the
first two elements raises on an axis of fewer than 2 entries. -/
def find_index (axis : List ℚ) (item : ℚ) : Except String ℤ :=
  if axis.length < 2 then .error "index out of range"
  else if nthQ axis 0 > nthQ axis 1 then
    if item > nthQ axis 0 then .ok 0
    else if item < nthQ axis (axis.length - 1) then .ok ((axis.length : ℤ) - 1)
    else .ok ((searchsorted (axis.map (fun x => -x)) (-item) : ℕ) : ℤ)
  else
    if item < nthQ axis 0 then .ok 0
    else if item > nthQ axis (axis.length - 1) then .ok ((axis.length : ℤ) - 1)
    else
      let insert_index := searchsorted axis item
      if insert_index < axis.length ∧ nthQ axis insert_index = item then
        .ok (insert_index : ℤ)
      else .ok ((insert_index : ℤ) - 1)

/-- Left scan of get_good_region_profile: python range(m, 0, -1) visits
m, m-1, ..., 1 (never index 0); the scan returns the first visited index
whose profile value is strictly below the threshold, or the default d when
no visited index is. -/
def scan_left (profile : List ℚ) (threshold_value : ℚ) (d : ℕ) : ℕ → ℕ
  | 0 => d
  | i + 1 =>
      if nthQ profile (i + 1) < threshold_value then i + 1
      else scan_left profile threshold_value d i

/-- Right scan of get_good_region_profile: python range(i, i + fuel) scanned
left to right; returns the first index whose profile value is strictly below
the threshold, or the default d. -/
def scan_right (profile : List ℚ) (threshold_value : ℚ) (d : ℕ) :
    ℕ → ℕ → ℕ
  | 0, _ => d
  | fuel + 1, i =>
      if nthQ profile i < threshold_value then i
      else scan_right profile threshold_value d fuel (i + 1)

/-- The core-span phase of get_good_region_profile: both bounds start at the
index m of the profile maximum; the left scan walks m, ..., 1 and the right
scan walks m, ..., length-1, each stopping at the first value strictly below
the threshold. -/
def good_region_core (profile : List ℚ) (threshold_value : ℚ) (m : ℕ) :
    ℕ × ℕ :=
  (scan_left profile threshold_value m m,
   scan_right profile threshold_value m (profile.length - m) m)

/-- Python int(): truncation toward zero of a rational. -/
def truncQ (q : ℚ) : ℤ := if 0 ≤ q then ⌊q⌋ else -⌊-q⌋

/-- get_good_region_profile of functions.py: threshold value from the
profile extrema, core span from the two scans, symmetric extension by
gfscale, clamping to the profile range, and int() truncation. -/
def get_good_region_profile (profile : List ℚ) (threshold gfscale : ℚ) :
    Except String (ℤ × ℤ) :=
  match listMin profile, listMax profile, argmaxE profile with
  | .ok profile_min, .ok profile_max, .ok index_maximum =>
    let threshold_value := (profile_max - profile_min) * threshold + profile_min
    let core := good_region_core profile threshold_value index_maximum
    let index_start : ℚ := (core.1 : ℚ)
    let index_end : ℚ := (core.2 : ℚ)
    let gf_extend := (index_end - index_start) * gfscale - (index_end - index_start)
    let s1 := index_start - gf_extend / 2
    let e1 := index_end + gf_extend / 2
    let s2 := if s1 > 0 then s1 else 0
    let e2 := if e1 < (profile.length : ℚ) - 1 then e1 else (profile.length : ℚ) - 1
    .ok (truncQ s2, truncQ e2)
  | .error e, _, _ => .error e
  | _, .error e, _ => .error e
  | _, _, .error e => .error e

/-- The Gaussian model evaluated at one point, gauss_function of
functions.py. -/
def gauss_function_at (F : FloatOps)
    (x offset amplitude center standard_deviation : ℚ) : ℚ :=
  offset + amplitude * F.exp (-(x - center) ^ 2 / (2 * standard_deviation ^ 2))

/-- The seeded nonlinear Gaussian fit, the underscore-prefixed gauss fit
helper of functions.py: seeds offset from the profile minimum, amplitude
from max minus offset, center from the axis value at the profile argmax
(or a supplied truthy center of mass), sigma from the trapezoid area of the
offset-corrected profile divided by amplitude times sqrt(2 pi); when the
solver fails the seeds themselves are returned. -/
def gauss_fit_seeded (F : FloatOps) (axis profile : List ℚ)
    (center_of_mass : Option ℚ) : Except String (ℚ × ℚ × ℚ × ℚ) :=
  match listMin profile, listMax profile, argmaxE profile with
  | .ok offset, .ok pmax, .ok am =>
    let amplitude := pmax - offset
    let center :=
      match center_of_mass with
      | some c => if c = 0 then nthQ axis am else c
      | none => nthQ axis am
    let surface := trapz (profile.map (fun v => v - offset)) axis
    let standard_deviation := surface / (amplitude * F.sqrt (2 * F.pi))
    match F.curve_fit axis profile (offset, amplitude, center, standard_deviation) with
    | some p => .ok p
    | none => .ok (offset, amplitude, center, standard_deviation)
  | .error e, _, _ => .error e
  | _, .error e, _ => .error e
  | _, _, .error e => .error e

/-- gauss_fit of functions.py: the length check first, then the raw moments,
then the seeded nonlinear fit; the returned standard deviation is the
absolute value of whatever the fit or the seed produced. -/
def gauss_fit (F : FloatOps) (profile axis : List ℚ) :
    Except String (List ℚ × ℚ × ℚ × ℚ × ℚ × ℚ × ℚ) :=
  if axis.length ≠ profile.length then .error "Invalid axis passed"
  else
    let center_of_mass := (List.zipWith (· * ·) axis profile).sum / profile.sum
    let center_of_mass_2 :=
      (List.zipWith (· * ·) (List.zipWith (· * ·) axis axis) profile).sum / profile.sum
    let rms := F.sqrt |center_of_mass_2 - center_of_mass * center_of_mass|
    match gauss_fit_seeded F axis profile none with
    | .error e => .error e
    | .ok (offset, amplitude, center, standard_deviation) =>
      .ok (axis.map (fun x =>
              gauss_function_at F x offset amplitude center standard_deviation),
           offset, amplitude, center, |standard_deviation|, center_of_mass, rms)

/-- The while loop of calculate_slices: while the counter is positive, shift
the start down and the end up by a full slice, stop as soon as either would
leave the axis, otherwise prepend the new start and append the new end and
consume two of the counter. -/
def slicesLoop (n np : ℤ) : ℕ → ℤ → ℤ → List ℤ → List ℤ
  | 0, _, _, acc => acc
  | 1, s, e, acc =>
      let s1 := s - np
      let e1 := e + np
      if s1 < 0 ∨ e1 ≥ n then acc else s1 :: (acc ++ [e1])
  | counter + 2, s, e, acc =>
      let s1 := s - np
      let e1 := e + np
      if s1 < 0 ∨ e1 ≥ n then acc
      else slicesLoop n np counter s1 e1 (s1 :: (acc ++ [e1]))

/-- Closed form of the boundary lists produced by the slice loop: j extra
symmetric pairs around the central pair (s, e), each shifted outward by np
from the previous boundary. -/
def boundsList (s e np : ℤ) : ℕ → List ℤ
  | 0 => [s, e]
  | j + 1 =>
      (s - np * ((j : ℤ) + 1)) :: (boundsList s e np j ++ [e + np * ((j : ℤ) + 1)])

/-- calculate_slices of functions.py: reject an even slice count, locate the
center and half-slice indices, floor the half-slice pixel count at 1, place
the central slice, and extend outward two boundaries at a time until the
counter is exhausted or a boundary would leave the axis. -/
def calculate_slices (axis : List ℚ) (center standard_deviation scaling : ℚ)
    (number_of_slices : ℕ) : Except String (List ℤ × ℤ × Option ℚ) :=
  if number_of_slices % 2 = 0 then .error "Number of slices must be odd."
  else
    match find_index axis center,
          find_index axis
            (center + scaling * standard_deviation / (number_of_slices : ℚ) / 2) with
    | .error e, _ => .error e
    | .ok _, .error e => .error e
    | .ok index_center, .ok index_half_slice =>
      let np0 := |index_half_slice - index_center|
      let n_pixel_half_slice := if np0 < 1 then 1 else np0
      let n_pixel_slice := 2 * n_pixel_half_slice
      let start_index := index_center - n_pixel_half_slice
      let end_index := index_center + n_pixel_half_slice
      let n : ℤ := (axis.length : ℤ)
      if 0 ≤ start_index ∧ end_index < n then
        let slice_length := |nthQ axis start_index.toNat - nthQ axis end_index.toNat|
        .ok (slicesLoop n n_pixel_slice (number_of_slices - 1) start_index end_index
               [start_index, end_index],
             n_pixel_half_slice, some slice_length)
      else
        .ok ([], n_pixel_half_slice, none)

/-- Column j of an image stored as a list of rows. -/
def column (image : List (List ℚ)) (j : ℕ) : List ℚ :=
  image.map (fun row => nthQ row j)

/-- numpy sum(image, axis=0): the list of column sums. -/
def colSums (image : List (List ℚ)) : List ℚ :=
  (List.range (image.headD []).length).map (fun j => (column image j).sum)

/-- numpy argmax(image, axis=0): per column, the first row index of the
column maximum. -/
def colArgmaxes (image : List (List ℚ)) : List ℕ :=
  (List.range (image.headD []).length).map (fun j => argmaxD (column image j))

/-- numpy boolean-mask indexing: keep the entries whose mask bit is true. -/
def maskFilter {α : Type} (xs : List α) (mask : List Bool) : List α :=
  (List.zip xs mask).filterMap (fun p => if p.2 then some p.1 else none)

/-- get_tilt of functions.py.  The y axis entries are Option rationals, none
standing for a not-a-number calibration value; the peak-y list inherits
these and the not-nan mask discards them.  The weights subtract the minimum
of the already baseline-corrected profile exactly as the source does. -/
def get_tilt (F : FloatOps) (image : List (List ℚ)) (x_axis : List ℚ)
    (y_axis : List (Option ℚ)) (w_order order : ℕ) :
    Except String (List ℚ × ℚ) :=
  if image.isEmpty then .error "attempt to get argmax of an empty sequence"
  else
    let mean_list : List (Option ℚ) :=
      (colArgmaxes image).map (fun i => y_axis.getD i none)
    let not_nan : List Bool := mean_list.map Option.isSome
    let projX := colSums image
    match listMin projX with
    | .error e => .error e
    | .ok projX_min =>
      let projX_corrected := projX.map (fun v => v - projX_min)
      let mean_image :=
        (List.zipWith (· * ·) projX_corrected x_axis).sum / projX_corrected.sum
      let xx := maskFilter x_axis not_nan
      let yy := mean_list.filterMap id
      match listMin projX_corrected with
      | .error e => .error e
      | .ok corrected_min =>
        let w := (maskFilter projX_corrected not_nan).map
                   (fun c => (c - corrected_min) ^ w_order)
        .ok (F.polyfit (xx.map (fun x => x - mean_image)) yy order w, mean_image)

/-- Floor semantics of find_index on in-range values, as amended: on either
direction the returned index is in range and its axis value is the largest
axis value at most the target; on an ascending axis the insertion point is
returned on an exact match and decremented otherwise; on a descending axis
the insertion point into the negated axis is returned directly. -/
def FindIndexFloor (axis : List ℚ) (item : ℚ) : Prop :=
  (List.Sorted (· < ·) axis → nthQ axis 0 ≤ item →
    item ≤ nthQ axis (axis.length - 1) →
    ∃ j : ℕ, find_index axis item = .ok (j : ℤ) ∧ j < axis.length ∧
      nthQ axis j ≤ item ∧
      (∀ k, k < axis.length → nthQ axis k ≤ item → nthQ axis k ≤ nthQ axis j) ∧
      (nthQ axis (searchsorted axis item) = item → j = searchsorted axis item) ∧
      (nthQ axis (searchsorted axis item) ≠ item →
        (j : ℤ) = (searchsorted axis item : ℤ) - 1)) ∧
  (List.Sorted (· > ·) axis → item ≤ nthQ axis 0 →
    nthQ axis (axis.length - 1) ≤ item →
    ∃ j : ℕ, find_index axis item = .ok (j : ℤ) ∧ j < axis.length ∧
      j = searchsorted (axis.map (fun x => -x)) (-item) ∧
      nthQ axis j ≤ item ∧
      ∀ k, k < axis.length → nthQ axis k ≤ item → nthQ axis k ≤ nthQ axis j)

/-- Characterization of the core-span scans of get_good_region_profile, as
amended: the left bound is the first index at or below the maximum index
whose value drops below the threshold, the left scan never examining index
0, and keeps the maximum index when no examined index drops below; the
right bound is the first index at or above the maximum index whose value
drops below the threshold and keeps the maximum index when none does. -/
def GoodRegionCore (profile : List ℚ) (T : ℚ) (m : ℕ) : Prop :=
  ((good_region_core profile T m).1 = m ∧
    (∀ i, 1 ≤ i → i ≤ m → ¬nthQ profile i < T) ∨
   (1 ≤ (good_region_core profile T m).1 ∧ (good_region_core profile T m).1 ≤ m ∧
    nthQ profile (good_region_core profile T m).1 < T ∧
    ∀ i, (good_region_core profile T m).1 < i → i ≤ m → ¬nthQ profile i < T)) ∧
  ((good_region_core profile T m).2 = m ∧
    (∀ i, m ≤ i → i < profile.length → ¬nthQ profile i < T) ∨
   (m ≤ (good_region_core profile T m).2 ∧
    (good_region_core profile T m).2 < profile.length ∧
    nthQ profile (good_region_core profile T m).2 < T ∧
    ∀ i, m ≤ i → i < (good_region_core profile T m).2 → ¬nthQ profile i < T))

/-- Full characterization of calculate_slices given the two located indices:
when the central slice does not fit, the empty boundary list with no slice
length; when it fits, the boundary list is the symmetric closed form with
the largest number of extra pairs that both stays within the requested
count and keeps every boundary inside the axis, and the computation stops
early exactly when the next pair would leave the axis. -/
def CalcSlicesSpec (axis : List ℚ) (center standard_deviation scaling : ℚ)
    (N : ℕ) (ic ihs : ℤ) : Prop :=
  (¬(0 ≤ ic - (if |ihs - ic| < 1 then 1 else |ihs - ic|) ∧
      ic + (if |ihs - ic| < 1 then 1 else |ihs - ic|) < (axis.length : ℤ)) →
    calculate_slices axis center standard_deviation scaling N =
      .ok ([], if |ihs - ic| < 1 then 1 else |ihs - ic|, none)) ∧
  ((0 ≤ ic - (if |ihs - ic| < 1 then 1 else |ihs - ic|) ∧
      ic + (if |ihs - ic| < 1 then 1 else |ihs - ic|) < (axis.length : ℤ)) →
    ∃ m : ℕ, m ≤ (N - 1) / 2 ∧
      calculate_slices axis center standard_deviation scaling N =
        .ok (boundsList (ic - (if |ihs - ic| < 1 then 1 else |ihs - ic|))
               (ic + (if |ihs - ic| < 1 then 1 else |ihs - ic|))
               (2 * (if |ihs - ic| < 1 then 1 else |ihs - ic|)) m,
             (if |ihs - ic| < 1 then 1 else |ihs - ic|),
             some |nthQ axis (ic - (if |ihs - ic| < 1 then 1 else |ihs - ic|)).toNat -
                   nthQ axis (ic + (if |ihs - ic| < 1 then 1 else |ihs - ic|)).toNat|) ∧
      (∀ k : ℕ, k ≤ m →
        0 ≤ ic - (if |ihs - ic| < 1 then 1 else |ihs - ic|) -
              2 * (if |ihs - ic| < 1 then 1 else |ihs - ic|) * (k : ℤ) ∧
        ic + (if |ihs - ic| < 1 then 1 else |ihs - ic|) +
              2 * (if |ihs - ic| < 1 then 1 else |ihs - ic|) * (k : ℤ) <
          (axis.length : ℤ)) ∧
      (m < (N - 1) / 2 →
        ¬(0 ≤ ic - (if |ihs - ic| < 1 then 1 else |ihs - ic|) -
                2 * (if |ihs - ic| < 1 then 1 else |ihs - ic|) * ((m : ℤ) + 1) ∧
          ic + (if |ihs - ic| < 1 then 1 else |ihs - ic|) +
                2 * (if |ihs - ic| < 1 then 1 else |ihs - ic|) * ((m : ℤ) + 1) <
            (axis.length : ℤ))))

/-- Characterization of get_tilt as the claim states it: mean_image is the
intensity-weighted mean x-position with the column-sum profile minus its own
minimum as weighting; retained samples are those whose peak-y is not
not-a-number; each retained sample is weighted by the baseline-corrected
column intensity raised to w_order (the extra subtraction of the corrected
profile minimum in the source vanishes because that minimum is 0); the
result is the weighted polynomial fit of (x - mean_image, peak-y) together
with mean_image. -/
def TiltSpec (F : FloatOps) (image : List (List ℚ)) (x_axis : List ℚ)
    (y_axis : List (Option ℚ)) (w_order order : ℕ) (pmin : ℚ) : Prop :=
  get_tilt F image x_axis y_axis w_order order =
    .ok (F.polyfit
          ((maskFilter x_axis
              (((colArgmaxes image).map (fun i => y_axis.getD i none)).map
                Option.isSome)).map
            (fun x => x -
              (List.zipWith (· * ·) ((colSums image).map (fun v => v - pmin))
                  x_axis).sum /
                ((colSums image).map (fun v => v - pmin)).sum))
          (((colArgmaxes image).map (fun i => y_axis.getD i none)).filterMap id)
          order
          ((maskFilter ((colSums image).map (fun v => v - pmin))
              (((colArgmaxes image).map (fun i => y_axis.getD i none)).map
                Option.isSome)).map
            (fun c => c ^ w_order)),
         (List.zipWith (· * ·) ((colSums image).map (fun v => v - pmin))
             x_axis).sum /
           ((colSums image).map (fun v => v - pmin)).sum)

lemma nthQ_eq_get (xs : List ℚ) (i : ℕ) (h : i < xs.length) :
    nthQ xs i = xs.get ⟨i, h⟩ := by
  simp [nthQ, List.getD_eq_getElem xs 0 h, List.getD, List.get?_eq_getElem?,
    List.getElem?_eq_getElem h]

lemma nthZ_zipWith (f : ℤ → ℤ → ℤ) :
    ∀ (A B : List ℤ) (i : ℕ), i < (List.zipWith f A B).length →
      nthZ (List.zipWith f A B) i = f (nthZ A i) (nthZ B i) := by
  intro A
  induction A with
  | nil => intro B i hi; simp at hi
  | cons a A ih =>
    intro B i hi
    cases B with
    | nil => simp at hi
    | cons b B =>
      cases i with
      | zero => simp [nthZ]
      | succ i =>
        simp only [List.zipWith_cons_cons, List.length_cons] at hi
        simpa [nthZ] using ih B i (by omega)

lemma mem_zipWith_exists (f : ℤ → ℤ → ℤ) (A B : List ℤ) (x : ℤ)
    (hx : x ∈ List.zipWith f A B) :
    ∃ i, i < (List.zipWith f A B).length ∧ nthZ (List.zipWith f A B) i = x := by
  obtain ⟨⟨i, hi⟩, hget⟩ := List.mem_iff_get.mp hx
  exact ⟨i, hi, by rw [← hget, nthZ, List.getD_eq_get _ 0 hi]⟩

/-- C3: for images of equal shape, subtract_background produces no negative
entry, and every position where the background strictly exceeds the image is
exactly 0. -/
theorem subtract_background_unsigned_safe (A B r : List ℤ)
    (h : subtract_background A B = .ok r) :
    (∀ x ∈ r, 0 ≤ x) ∧
    (∀ i, i < r.length → nthZ B i > nthZ A i → nthZ r i = 0) := by
  unfold subtract_background at h
  by_cases hl : A.length ≠ B.length
  · simp [hl] at h
  · rw [if_neg hl] at h
    have hr : r = List.zipWith
        (fun a b => if b > a then 0 else (a - b % 65536) % 65536) A B := by
      cases h; rfl
    subst hr
    constructor
    · intro x hx
      obtain ⟨i, hi, hnth⟩ := mem_zipWith_exists _ A B x hx
      rw [← hnth, nthZ_zipWith _ A B i hi]
      by_cases hbi : nthZ B i > nthZ A i
      · simp [hbi]
      · have h2 : ((65536 : ℤ)) ≠ 0 := by norm_num
        simp only [hbi, if_neg, if_false, gt_iff_lt, not_lt] at *
        have := Int.emod_nonneg (nthZ A i - nthZ B i % 65536) h2
        simp [hbi]
        omega
    · intro i hi hbi
      rw [nthZ_zipWith _ A B i hi]
      simp [hbi]

/-- Concrete evaluation of the C3 theorem: a 2-pixel image against a
background that exceeds it at the second position. -/
theorem subtract_background_unsigned_safe_witness :
    subtract_background [5, 3] [2, 7] = .ok [3, 0] ∧
    ((∀ x ∈ [(3 : ℤ), 0], 0 ≤ x) ∧
     (∀ i, i < ([(3 : ℤ), 0] : List ℤ).length →
        nthZ [2, 7] i > nthZ [5, 3] i → nthZ [3, 0] i = 0)) :=
  ⟨rfl, subtract_background_unsigned_safe [5, 3] [2, 7] [3, 0] rfl⟩

lemma sorted_nthQ_lt (xs : List ℚ) (hs : List.Sorted (· < ·) xs)
    (i j : ℕ) (hij : i < j) (hj : j < xs.length) : nthQ xs i < nthQ xs j := by
  rw [nthQ_eq_get xs i (lt_trans hij hj), nthQ_eq_get xs j hj]
  exact hs.rel_get_of_lt hij

lemma sorted_nthQ_le (xs : List ℚ) (hs : List.Sorted (· < ·) xs)
    (i j : ℕ) (hij : i ≤ j) (hj : j < xs.length) : nthQ xs i ≤ nthQ xs j := by
  rcases Nat.lt_or_ge i j with h | h
  · exact le_of_lt (sorted_nthQ_lt xs hs i j h hj)
  · have : i = j := by omega
    subst this; exact le_refl _

lemma sorted_nthQ_gt (xs : List ℚ) (hs : List.Sorted (· > ·) xs)
    (i j : ℕ) (hij : i < j) (hj : j < xs.length) : nthQ xs j < nthQ xs i := by
  rw [nthQ_eq_get xs i (lt_trans hij hj), nthQ_eq_get xs j hj]
  exact hs.rel_get_of_lt hij

lemma sorted_nthQ_ge (xs : List ℚ) (hs : List.Sorted (· > ·) xs)
    (i j : ℕ) (hij : i ≤ j) (hj : j < xs.length) : nthQ xs j ≤ nthQ xs i := by
  rcases Nat.lt_or_ge i j with h | h
  · exact le_of_lt (sorted_nthQ_gt xs hs i j h hj)
  · have : i = j := by omega
    subst this; exact le_refl _

lemma countP_lt_all (v : ℚ) :
    ∀ xs : List ℚ, List.Sorted (· < ·) xs →
      ∀ i, i < xs.countP (fun x => decide (x < v)) → nthQ xs i < v := by
  intro xs
  induction xs with
  | nil => intro _ i hi; simp at hi
  | cons x t ih =>
    intro hs i hi
    rw [List.sorted_cons] at hs
    by_cases hx : x < v
    · rw [List.countP_cons_of_pos _ _ (by simpa using hx)] at hi
      cases i with
      | zero => simpa [nthQ] using hx
      | succ i =>
        have := ih hs.2 i (by omega)
        simpa [nthQ] using this
    · rw [List.countP_cons_of_neg _ _ (by simpa using hx)] at hi
      have hz : t.countP (fun x => decide (x < v)) = 0 := by
        rw [List.countP_eq_zero]
        intro a ha
        have : x < a := hs.1 a ha
        simp only [decide_eq_true_eq]
        intro hav
        exact hx (lt_trans this hav)
      omega

lemma countP_lt_bound (v : ℚ) :
    ∀ xs : List ℚ, List.Sorted (· < ·) xs →
      xs.countP (fun x => decide (x < v)) < xs.length →
      ¬nthQ xs (xs.countP (fun x => decide (x < v))) < v := by
  intro xs
  induction xs with
  | nil => intro _ h; simp at h
  | cons x t ih =>
    intro hs hlen
    rw [List.sorted_cons] at hs
    by_cases hx : x < v
    · rw [List.countP_cons_of_pos _ _ (by simpa using hx)] at hlen ⊢
      have := ih hs.2 (by simpa using hlen)
      simpa [nthQ] using this
    · rw [List.countP_cons_of_neg _ _ (by simpa using hx)]
      have hz : t.countP (fun x => decide (x < v)) = 0 := by
        rw [List.countP_eq_zero]
        intro a ha
        have : x < a := hs.1 a ha
        simp only [decide_eq_true_eq]
        intro hav
        exact hx (lt_trans this hav)
      rw [List.countP_cons_of_neg _ _ (by simpa using hx), hz] at hlen
      simpa [hz, nthQ] using hx

lemma countP_gt_all (v : ℚ) :
    ∀ xs : List ℚ, List.Sorted (· > ·) xs →
      ∀ i, i < xs.countP (fun x => decide (v < x)) → v < nthQ xs i := by
  intro xs
  induction xs with
  | nil => intro _ i hi; simp at hi
  | cons x t ih =>
    intro hs i hi
    rw [List.sorted_cons] at hs
    by_cases hx : v < x
    · rw [List.countP_cons_of_pos _ _ (by simpa using hx)] at hi
      cases i with
      | zero => simpa [nthQ] using hx
      | succ i =>
        have := ih hs.2 i (by omega)
        simpa [nthQ] using this
    · rw [List.countP_cons_of_neg _ _ (by simpa using hx)] at hi
      have hz : t.countP (fun x => decide (v < x)) = 0 := by
        rw [List.countP_eq_zero]
        intro a ha
        have : a < x := hs.1 a ha
        simp only [decide_eq_true_eq]
        intro hav
        exact hx (lt_trans hav this)
      omega

lemma countP_gt_bound (v : ℚ) :
    ∀ xs : List ℚ, List.Sorted (· > ·) xs →
      xs.countP (fun x => decide (v < x)) < xs.length →
      nthQ xs (xs.countP (fun x => decide (v < x))) ≤ v := by
  intro xs
  induction xs with
  | nil => intro _ h; simp at h
  | cons x t ih =>
    intro hs hlen
    rw [List.sorted_cons] at hs
    by_cases hx : v < x
    · rw [List.countP_cons_of_pos _ _ (by simpa using hx)] at hlen ⊢
      have := ih hs.2 (by simpa using hlen)
      simpa [nthQ] using this
    · rw [List.countP_cons_of_neg _ _ (by simpa using hx)]
      have hz : t.countP (fun x => decide (v < x)) = 0 := by
        rw [List.countP_eq_zero]
        intro a ha
        have : a < x := hs.1 a ha
        simp only [decide_eq_true_eq]
        intro hav
        exact hx (lt_trans hav this)
      rw [hz]
      simpa [nthQ] using le_of_not_lt hx

lemma searchsorted_neg (axis : List ℚ) (item : ℚ) :
    searchsorted (axis.map (fun x => -x)) (-item) =
      axis.countP (fun x => decide (item < x)) := by
  unfold searchsorted
  rw [List.countP_map]
  congr 1
  funext x
  simp [neg_lt_neg_iff]

/-- C9: find_index clamps out-of-range values per direction: ascending axes
send values below the first element to 0 and above the last to length-1;
descending axes send values above the first element to 0 and below the last
to length-1. -/
theorem find_index_clamp (axis : List ℚ) (item : ℚ) (hlen : 2 ≤ axis.length) :
    (List.Sorted (· < ·) axis →
      (item < nthQ axis 0 → find_index axis item = .ok 0) ∧
      (item > nthQ axis (axis.length - 1) →
        find_index axis item = .ok ((axis.length : ℤ) - 1))) ∧
    (List.Sorted (· > ·) axis →
      (item > nthQ axis 0 → find_index axis item = .ok 0) ∧
      (item < nthQ axis (axis.length - 1) →
        find_index axis item = .ok ((axis.length : ℤ) - 1))) := by
  constructor
  · intro hs
    have h01 : nthQ axis 0 < nthQ axis 1 := sorted_nthQ_lt axis hs 0 1 (by omega) (by omega)
    have hdir : ¬nthQ axis 0 > nthQ axis 1 := not_lt.mpr (le_of_lt h01)
    constructor
    · intro hlt
      unfold find_index
      rw [if_neg (by omega), if_neg hdir, if_pos hlt]
    · intro hgt
      have h0last : nthQ axis 0 ≤ nthQ axis (axis.length - 1) :=
        sorted_nthQ_le axis hs 0 (axis.length - 1) (by omega) (by omega)
      unfold find_index
      rw [if_neg (by omega), if_neg hdir, if_neg (not_lt.mpr (by linarith)), if_pos hgt]
  · intro hs
    have h01 : nthQ axis 1 < nthQ axis 0 := sorted_nthQ_gt axis hs 0 1 (by omega) (by omega)
    have hdir : nthQ axis 0 > nthQ axis 1 := h01
    constructor
    · intro hgt
      unfold find_index
      rw [if_neg (by omega), if_pos hdir, if_pos hgt]
    · intro hlt
      have h0last : nthQ axis (axis.length - 1) ≤ nthQ axis 0 :=
        sorted_nthQ_ge axis hs 0 (axis.length - 1) (by omega) (by omega)
      unfold find_index
      rw [if_neg (by omega), if_pos hdir, if_neg (not_lt.mpr (by linarith)), if_pos hlt]

/-- Concrete evaluation of the C9 theorem on an ascending 3-point axis. -/
theorem find_index_clamp_witness :
    2 ≤ ([1, 2, 4] : List ℚ).length ∧
    ((List.Sorted (· < ·) ([1, 2, 4] : List ℚ) →
      ((0 : ℚ) < nthQ [1, 2, 4] 0 → find_index [1, 2, 4] 0 = .ok 0) ∧
      ((0 : ℚ) > nthQ [1, 2, 4] (([1, 2, 4] : List ℚ).length - 1) →
        find_index [1, 2, 4] 0 = .ok ((([1, 2, 4] : List ℚ).length : ℤ) - 1))) ∧
     (List.Sorted (· > ·) ([1, 2, 4] : List ℚ) →
      ((0 : ℚ) > nthQ [1, 2, 4] 0 → find_index [1, 2, 4] 0 = .ok 0) ∧
      ((0 : ℚ) < nthQ [1, 2, 4] (([1, 2, 4] : List ℚ).length - 1) →
        find_index [1, 2, 4] 0 = .ok ((([1, 2, 4] : List ℚ).length : ℤ) - 1)))) :=
  ⟨by decide, find_index_clamp [1, 2, 4] 0 (by decide)⟩

/-- C2 (amended): floor semantics of find_index on in-range values of a
strictly monotonic axis.  On an ascending axis the insertion point is
returned on an exact match and decremented otherwise; on a descending axis
the insertion point into the negated axis is returned directly, with no
decrement; in both directions the returned index is in range and carries the
largest axis value at most the target. -/
theorem find_index_floor (axis : List ℚ) (item : ℚ)
    (hlen : 2 ≤ axis.length) : FindIndexFloor axis item := by
  constructor
  · intro hs h0 hlast
    have h01 : nthQ axis 0 < nthQ axis 1 := sorted_nthQ_lt axis hs 0 1 (by omega) (by omega)
    have hdir : ¬nthQ axis 0 > nthQ axis 1 := not_lt.mpr (le_of_lt h01)
    have hcle : searchsorted axis item ≤ axis.length := List.countP_le_length _
    have hclt : searchsorted axis item < axis.length := by
      rcases Nat.lt_or_ge (searchsorted axis item) axis.length with h | h
      · exact h
      · exfalso
        have := countP_lt_all item axis hs (axis.length - 1)
          (show axis.length - 1 < searchsorted axis item by omega)
        exact absurd hlast (not_le.mpr this)
    by_cases hexact : nthQ axis (searchsorted axis item) = item
    · refine ⟨searchsorted axis item, ?_, hclt, le_of_eq hexact, ?_, fun _ => rfl,
        fun hne => absurd hexact hne⟩
      · unfold find_index
        rw [if_neg (by omega), if_neg hdir, if_neg (not_lt.mpr h0),
          if_neg (not_lt.mpr hlast), if_pos ⟨hclt, hexact⟩]
      · intro k hk hki
        rcases le_or_lt k (searchsorted axis item) with hkc | hkc
        · exact sorted_nthQ_le axis hs k _ hkc hclt
        · have := sorted_nthQ_lt axis hs _ k hkc hk
          rw [hexact] at this
          linarith
    · have hc1 : 1 ≤ searchsorted axis item := by
        by_contra hc0
        have hc0 : searchsorted axis item = 0 := by omega
        have hb : ¬nthQ axis (searchsorted axis item) < item :=
          countP_lt_bound item axis hs hclt
        rw [hc0] at hb hexact
        exact hexact (le_antisymm h0 (not_lt.mp hb))
      have hbnd : ¬nthQ axis (searchsorted axis item) < item :=
        countP_lt_bound item axis hs hclt
      refine ⟨searchsorted axis item - 1, ?_, by omega, ?_, ?_,
        fun he => absurd he hexact, fun _ => by push_cast [Nat.cast_sub hc1]; ring⟩
      · unfold find_index
        rw [if_neg (by omega), if_neg hdir, if_neg (not_lt.mpr h0),
          if_neg (not_lt.mpr hlast), if_neg (by intro hc; exact hexact hc.2)]
        congr 1
        push_cast [Nat.cast_sub hc1]
        ring
      · exact le_of_lt (countP_lt_all item axis hs _
          (show searchsorted axis item - 1 < searchsorted axis item by omega))
      · intro k hk hki
        rcases le_or_lt k (searchsorted axis item - 1) with hkc | hkc
        · exact sorted_nthQ_le axis hs k _ hkc (by omega)
        · exfalso
          have hkc' : searchsorted axis item ≤ k := by omega
          have h1 : nthQ axis (searchsorted axis item) ≤ nthQ axis k :=
            sorted_nthQ_le axis hs _ k hkc' hk
          have h2 : item ≤ nthQ axis (searchsorted axis item) := not_lt.mp hbnd
          exact hexact (le_antisymm (by linarith) h2)
  · intro hs h0 hlast
    have hdir : nthQ axis 0 > nthQ axis 1 := sorted_nthQ_gt axis hs 0 1 (by omega) (by omega)
    have hclt : axis.countP (fun x => decide (item < x)) < axis.length := by
      rcases Nat.lt_or_ge (axis.countP (fun x => decide (item < x))) axis.length with h | h
      · exact h
      · exfalso
        have hcle : axis.countP (fun x => decide (item < x)) ≤ axis.length :=
          List.countP_le_length _
        have := countP_gt_all item axis hs (axis.length - 1) (by omega)
        exact absurd hlast (not_le.mpr this)
    refine ⟨axis.countP (fun x => decide (item < x)), ?_, hclt,
      (searchsorted_neg axis item).symm, countP_gt_bound item axis hs hclt, ?_⟩
    · unfold find_index
      rw [if_neg (by omega), if_pos hdir, if_neg (not_lt.mpr h0),
        if_neg (not_lt.mpr hlast), searchsorted_neg]
    · intro k hk hki
      rcases Nat.lt_or_ge k (axis.countP (fun x => decide (item < x))) with hkc | hkc
      · exact absurd hki (not_le.mpr (countP_gt_all item axis hs k hkc))
      · exact sorted_nthQ_ge axis hs _ k hkc hk

/-- Concrete evaluation of the C2 theorem on an ascending 3-point axis with
an in-range target. -/
theorem find_index_floor_witness :
    2 ≤ ([1, 2, 4] : List ℚ).length ∧ FindIndexFloor [1, 2, 4] 3 :=
  ⟨by decide, find_index_floor [1, 2, 4] 3 (by decide)⟩

/-- C2 counterexample: on the strictly descending axis [18, 16, 14, 12] with
the in-range target 15, the insertion point into the negated axis is 2 and
it does not land on an equal value, yet find_index returns 2 itself, not the
index one below the insertion point. -/
theorem find_index_descending_no_decrement :
    searchsorted (([18, 16, 14, 12] : List ℚ).map (fun x => -x)) (-15) = 2 ∧
    nthQ [18, 16, 14, 12] 2 ≠ 15 ∧
    find_index [18, 16, 14, 12] 15 = .ok 2 ∧
    (2 : ℤ) ≠ (2 : ℤ) - 1 :=
  ⟨by decide, by decide, rfl, by decide⟩

lemma scan_left_spec (p : List ℚ) (T : ℚ) (d : ℕ) :
    ∀ j : ℕ,
      (scan_left p T d j = d ∧ ∀ i, 1 ≤ i → i ≤ j → ¬nthQ p i < T) ∨
      (1 ≤ scan_left p T d j ∧ scan_left p T d j ≤ j ∧
        nthQ p (scan_left p T d j) < T ∧
        ∀ i, scan_left p T d j < i → i ≤ j → ¬nthQ p i < T) := by
  intro j
  induction j with
  | zero => exact Or.inl ⟨rfl, fun i h1 h2 => by omega⟩
  | succ j ih =>
    by_cases hj : nthQ p (j + 1) < T
    · right
      rw [scan_left, if_pos hj]
      exact ⟨by omega, le_refl _, hj, fun i h1 h2 => by omega⟩
    · rw [scan_left, if_neg hj]
      rcases ih with ⟨he, hall⟩ | ⟨h1, h2, h3, h4⟩
      · left
        refine ⟨he, fun i hi1 hi2 => ?_⟩
        rcases Nat.lt_or_ge i (j + 1) with h | h
        · exact hall i hi1 (by omega)
        · have : i = j + 1 := by omega
          subst this; exact hj
      · right
        refine ⟨h1, by omega, h3, fun i hi1 hi2 => ?_⟩
        rcases Nat.lt_or_ge i (j + 1) with h | h
        · exact h4 i hi1 (by omega)
        · have : i = j + 1 := by omega
          subst this; exact hj

lemma scan_right_spec (p : List ℚ) (T : ℚ) (d : ℕ) :
    ∀ (fuel i : ℕ),
      (scan_right p T d fuel i = d ∧
        ∀ k, i ≤ k → k < i + fuel → ¬nthQ p k < T) ∨
      (i ≤ scan_right p T d fuel i ∧ scan_right p T d fuel i < i + fuel ∧
        nthQ p (scan_right p T d fuel i) < T ∧
        ∀ k, i ≤ k → k < scan_right p T d fuel i → ¬nthQ p k < T) := by
  intro fuel
  induction fuel with
  | zero => exact fun i => Or.inl ⟨rfl, fun k h1 h2 => by omega⟩
  | succ fuel ih =>
    intro i
    by_cases hi : nthQ p i < T
    · right
      rw [scan_right, if_pos hi]
      exact ⟨le_refl _, by omega, hi, fun k h1 h2 => by omega⟩
    · rw [scan_right, if_neg hi]
      rcases ih (i + 1) with ⟨he, hall⟩ | ⟨h1, h2, h3, h4⟩
      · left
        refine ⟨he, fun k hk1 hk2 => ?_⟩
        rcases Nat.lt_or_ge k (i + 1) with h | h
        · have : k = i := by omega
          subst this; exact hi
        · exact hall k h (by omega)
      · right
        refine ⟨by omega, by omega, h3, fun k hk1 hk2 => ?_⟩
        rcases Nat.lt_or_ge k (i + 1) with h | h
        · have : k = i := by omega
          subst this; exact hi
        · exact h4 k h hk2

/-- C6 (amended): with the threshold value set to min plus (max - min) times
the threshold fraction and both bounds starting at the argmax index, the
core span of get_good_region_profile satisfies: the left bound is the first
index found scanning from the argmax down to index 1 (index 0 is never
examined) whose value drops strictly below the threshold, keeping the
argmax index when no examined index does; the right bound is the first
index found scanning from the argmax rightward to the end whose value
drops strictly below the threshold, keeping the argmax index when none
does. -/
theorem good_region_core_scan (profile : List ℚ) (θ pmin pmax : ℚ) (m : ℕ)
    (hmin : listMin profile = .ok pmin) (hmax : listMax profile = .ok pmax)
    (ham : argmaxE profile = .ok m) :
    GoodRegionCore profile (pmin + (pmax - pmin) * θ) m := by
  constructor
  · rcases scan_left_spec profile (pmin + (pmax - pmin) * θ) m m with ⟨he, hall⟩ | h
    · exact Or.inl ⟨by simpa [good_region_core] using he, by
        simpa [good_region_core] using hall⟩
    · exact Or.inr (by simpa [good_region_core] using h)
  · rcases scan_right_spec profile (pmin + (pmax - pmin) * θ) m
      (profile.length - m) m with ⟨he, hall⟩ | ⟨h1, h2, h3, h4⟩
    · refine Or.inl ⟨by simpa [good_region_core] using he, fun i hi1 hi2 => ?_⟩
      exact hall i hi1 (by omega)
    · refine Or.inr ⟨by simpa [good_region_core] using h1, ?_, by
        simpa [good_region_core] using h3, by simpa [good_region_core] using h4⟩
      have hmlen : m < profile.length := by
        rcases Nat.lt_or_ge m profile.length with h | h
        · exact h
        · exfalso; omega
      simp only [good_region_core]
      omega

/-- Concrete evaluation of the C6 theorem on a single-peak 3-point
profile. -/
theorem good_region_core_scan_witness :
    listMin [1, 2, 3] = .ok 1 ∧ listMax [1, 2, 3] = .ok 3 ∧
    argmaxE [1, 2, 3] = .ok 2 ∧
    GoodRegionCore [1, 2, 3] (1 + (3 - 1) * (1 / 2)) 2 :=
  ⟨rfl, rfl, rfl, good_region_core_scan [1, 2, 3] (1 / 2) 1 3 2 rfl rfl rfl⟩

/-- C6 counterexample: on the profile [0, 5, 5, 10] with threshold fraction
3/10 the threshold value is 3, the argmax is 3, and the value at index 0
(which lies left of the argmax) is strictly below the threshold, yet the
left core bound stays at the argmax index 3 because the left scan never
examines index 0; under the claim the scan would have found index 0. -/
theorem good_region_left_scan_misses_zero :
    listMin [0, 5, 5, 10] = .ok 0 ∧ listMax [0, 5, 5, 10] = .ok 10 ∧
    ((10 : ℚ) - 0) * (3 / 10) + 0 = 3 ∧
    argmaxE [0, 5, 5, 10] = .ok 3 ∧
    nthQ [0, 5, 5, 10] 0 < 3 ∧ (0 : ℕ) < 3 ∧
    (∀ i, i < 4 → 1 ≤ i → ¬nthQ [0, 5, 5, 10] i < 3) ∧
    (good_region_core [0, 5, 5, 10] 3 3).1 = 3 :=
  ⟨rfl, rfl,
   by rw [sub_zero, add_zero, ← mul_div_assoc]; exact mul_div_cancel_left₀ 3 (by decide),
   rfl, by decide, by decide, by decide, rfl⟩

lemma gauss_fit_seeded_ok (F : FloatOps) (axis : List ℚ) (v : ℚ) (t : List ℚ) :
    ∃ q : ℚ × ℚ × ℚ × ℚ, gauss_fit_seeded F axis (v :: t) none = .ok q := by
  unfold gauss_fit_seeded
  simp only [listMin, listMax, argmaxE]
  cases hcf : F.curve_fit axis (v :: t)
      (t.foldl min v, t.foldl max v - t.foldl min v,
       nthQ axis (argmaxAux t 1 0 v),
       trapz ((v :: t).map (fun x => x - t.foldl min v)) axis /
         ((t.foldl max v - t.foldl min v) * F.sqrt (2 * F.pi))) with
  | none => exact ⟨_, rfl⟩
  | some p => exact ⟨p, rfl⟩

/-- C1: whenever the nonlinear refinement fails (returns none, standing for
non-convergence or any raised error), gauss_fit does not propagate an error:
it returns the moment-based seed values as the optimal parameters, namely
offset = profile minimum, amplitude = profile maximum minus offset, center =
axis value at the profile argmax, and sigma = trapezoid integral of the
offset-corrected profile against the axis divided by amplitude times
sqrt(2 pi) (the returned width being its absolute value). -/
theorem gauss_fit_fallback (F : FloatOps) (profile axis : List ℚ)
    (pmin pmax : ℚ) (am : ℕ)
    (hlen : axis.length = profile.length)
    (hfail : ∀ a p s, F.curve_fit a p s = none)
    (hmin : listMin profile = .ok pmin) (hmax : listMax profile = .ok pmax)
    (ham : argmaxE profile = .ok am) :
    ∃ curve com rms,
      gauss_fit F profile axis =
        .ok (curve, pmin, pmax - pmin, nthQ axis am,
             |trapz (profile.map (fun v => v - pmin)) axis /
                ((pmax - pmin) * F.sqrt (2 * F.pi))|,
             com, rms) := by
  have hseed : gauss_fit_seeded F axis profile none =
      .ok (pmin, pmax - pmin, nthQ axis am,
        trapz (profile.map (fun v => v - pmin)) axis /
          ((pmax - pmin) * F.sqrt (2 * F.pi))) := by
    unfold gauss_fit_seeded
    rw [hmin, hmax, ham]
    simp only [hfail]
  refine ⟨axis.map (fun x =>
      gauss_function_at F x pmin (pmax - pmin) (nthQ axis am)
        (trapz (profile.map (fun v => v - pmin)) axis /
          ((pmax - pmin) * F.sqrt (2 * F.pi)))),
    (List.zipWith (· * ·) axis profile).sum / profile.sum,
    F.sqrt |(List.zipWith (· * ·) (List.zipWith (· * ·) axis axis) profile).sum /
        profile.sum -
      (List.zipWith (· * ·) axis profile).sum / profile.sum *
        ((List.zipWith (· * ·) axis profile).sum / profile.sum)|, ?_⟩
  unfold gauss_fit
  rw [if_neg (by omega), hseed]

/-- Concrete evaluation of the C1 theorem: a constant-valued profile with an
always-failing solver does not throw and yields the seeded values. -/
theorem gauss_fit_fallback_witness :
    ([0, 1, 2] : List ℚ).length = ([5, 5, 5] : List ℚ).length ∧
    (∀ a p s, trivialOps.curve_fit a p s = none) ∧
    listMin [5, 5, 5] = .ok 5 ∧ listMax [5, 5, 5] = .ok 5 ∧
    argmaxE [5, 5, 5] = .ok 0 ∧
    (∃ curve com rms,
      gauss_fit trivialOps [5, 5, 5] [0, 1, 2] =
        .ok (curve, 5, 5 - 5, nthQ [0, 1, 2] 0,
             |trapz (([5, 5, 5] : List ℚ).map (fun v => v - 5)) [0, 1, 2] /
                ((5 - 5) * trivialOps.sqrt (2 * trivialOps.pi))|,
             com, rms)) :=
  ⟨rfl, fun _ _ _ => rfl, rfl, rfl, rfl,
   gauss_fit_fallback trivialOps [5, 5, 5] [0, 1, 2] 5 5 0 rfl
     (fun _ _ _ => rfl) rfl rfl rfl⟩

lemma find_index_total (axis : List ℚ) (item : ℚ) (hlen : 2 ≤ axis.length) :
    ∃ z, find_index axis item = .ok z := by
  unfold find_index
  rw [if_neg (by omega)]
  by_cases hdir : nthQ axis 0 > nthQ axis 1
  · rw [if_pos hdir]
    by_cases h1 : item > nthQ axis 0
    · rw [if_pos h1]; exact ⟨_, rfl⟩
    · rw [if_neg h1]
      by_cases h2 : item < nthQ axis (axis.length - 1)
      · rw [if_pos h2]; exact ⟨_, rfl⟩
      · rw [if_neg h2]; exact ⟨_, rfl⟩
  · rw [if_neg hdir]
    by_cases h1 : item < nthQ axis 0
    · rw [if_pos h1]; exact ⟨_, rfl⟩
    · rw [if_neg h1]
      by_cases h2 : item > nthQ axis (axis.length - 1)
      · rw [if_pos h2]; exact ⟨_, rfl⟩
      · rw [if_neg h2]
        dsimp only
        by_cases h3 : searchsorted axis item < axis.length ∧
            nthQ axis (searchsorted axis item) = item
        · rw [if_pos h3]; exact ⟨_, rfl⟩
        · rw [if_neg h3]; exact ⟨_, rfl⟩

lemma calculate_slices_total (axis : List ℚ) (center standard_deviation scaling : ℚ)
    (N : ℕ) (hodd : N % 2 = 1) (hlen : 2 ≤ axis.length) :
    ∃ r, calculate_slices axis center standard_deviation scaling N = .ok r := by
  obtain ⟨ic, h1⟩ := find_index_total axis center hlen
  obtain ⟨ihs, h2⟩ := find_index_total axis
    (center + scaling * standard_deviation / (N : ℚ) / 2) hlen
  unfold calculate_slices
  rw [if_neg (by omega), h1, h2]
  dsimp only
  by_cases hc : 0 ≤ ic - (if |ihs - ic| < 1 then 1 else |ihs - ic|) ∧
      ic + (if |ihs - ic| < 1 then 1 else |ihs - ic|) < (axis.length : ℤ)
  · rw [if_pos hc]; exact ⟨_, rfl⟩
  · rw [if_neg hc]; exact ⟨_, rfl⟩

lemma gauss_fit_total (F : FloatOps) (profile axis : List ℚ)
    (hlen : axis.length = profile.length) (hne : profile ≠ []) :
    ∃ r, gauss_fit F profile axis = .ok r := by
  cases profile with
  | nil => exact absurd rfl hne
  | cons v t =>
    obtain ⟨⟨a, b, c, d⟩, hq⟩ := gauss_fit_seeded_ok F axis v t
    unfold gauss_fit
    rw [if_neg (by omega), hq]
    exact ⟨_, rfl⟩

/-- C7 (amended): structural contract violations are fatal and precede any
result: calculate_slices errors exactly on an even slice count (for axes of
at least two entries it never errors otherwise), and gauss_fit errors on a
length mismatch before computing anything, and, for nonempty profiles, only
then. -/
theorem structural_contract_errors :
    (∀ (axis : List ℚ) (c sd sc : ℚ) (N : ℕ), N % 2 = 0 →
      calculate_slices axis c sd sc N = .error "Number of slices must be odd.") ∧
    (∀ (axis : List ℚ) (c sd sc : ℚ) (N : ℕ), N % 2 = 1 → 2 ≤ axis.length →
      ∃ r, calculate_slices axis c sd sc N = .ok r) ∧
    (∀ (F : FloatOps) (profile axis : List ℚ), axis.length ≠ profile.length →
      gauss_fit F profile axis = .error "Invalid axis passed") ∧
    (∀ (F : FloatOps) (profile axis : List ℚ), axis.length = profile.length →
      profile ≠ [] → ∃ r, gauss_fit F profile axis = .ok r) := by
  refine ⟨fun axis c sd sc N h => ?_, fun axis c sd sc N h1 h2 => ?_,
    fun F profile axis h => ?_, fun F profile axis h1 h2 => ?_⟩
  · unfold calculate_slices; rw [if_pos h]
  · exact calculate_slices_total axis c sd sc N h1 h2
  · unfold gauss_fit; rw [if_pos h]
  · exact gauss_fit_total F profile axis h1 h2

/-- Concrete evaluation of the C7 theorem at each of its four clauses. -/
theorem structural_contract_errors_witness :
    ((2 : ℕ) % 2 = 0 ∧
      calculate_slices [0, 1] 0 0 0 2 = .error "Number of slices must be odd.") ∧
    ((3 : ℕ) % 2 = 1 ∧ 2 ≤ ([0, 1] : List ℚ).length ∧
      ∃ r, calculate_slices [0, 1] 0 0 0 3 = .ok r) ∧
    (([] : List ℚ).length ≠ ([1] : List ℚ).length ∧
      gauss_fit trivialOps [1] [] = .error "Invalid axis passed") ∧
    (([2] : List ℚ).length = ([1] : List ℚ).length ∧ ([1] : List ℚ) ≠ [] ∧
      ∃ r, gauss_fit trivialOps [1] [2] = .ok r) :=
  ⟨⟨rfl, structural_contract_errors.1 [0, 1] 0 0 0 2 rfl⟩,
   ⟨rfl, by decide, structural_contract_errors.2.1 [0, 1] 0 0 0 3 rfl (by decide)⟩,
   ⟨by decide, structural_contract_errors.2.2.1 trivialOps [1] [] (by decide)⟩,
   ⟨rfl, by decide, structural_contract_errors.2.2.2 trivialOps [1] [2] rfl (by decide)⟩⟩

/-- C7 counterexample: on the empty profile with the empty (length-matched)
axis, gauss_fit raises the empty-reduction error of the profile minimum even
though the two lengths are equal, so a length mismatch is not the only way
gauss_fit can raise. -/
theorem gauss_fit_errors_on_empty_matched_input :
    ([] : List ℚ).length = ([] : List ℚ).length ∧
    gauss_fit trivialOps [] [] =
      .error "zero-size array to reduction operation minimum" :=
  ⟨rfl, rfl⟩

lemma boundsList_zero (s e np : ℤ) : boundsList s e np 0 = [s, e] := rfl

lemma boundsList_succ (s e np : ℤ) (j : ℕ) :
    boundsList s e np (j + 1) =
      (s - np * ((j : ℤ) + 1)) :: (boundsList s e np j ++ [e + np * ((j : ℤ) + 1)]) :=
  rfl

lemma boundsList_length (s e np : ℤ) :
    ∀ j : ℕ, (boundsList s e np j).length = 2 * j + 2 := by
  intro j
  induction j with
  | zero => rfl
  | succ j ih =>
    rw [boundsList_succ]
    simp only [List.length_cons, List.length_append, List.length_nil, ih]
    omega

lemma boundsList_head? (s e np : ℤ) :
    ∀ j : ℕ, (boundsList s e np j).head? = some (s - np * (j : ℤ)) := by
  intro j
  cases j with
  | zero => simp [boundsList_zero]
  | succ j => rw [boundsList_succ]; push_cast; rfl

lemma boundsList_getLast? (s e np : ℤ) :
    ∀ j : ℕ, (boundsList s e np j).getLast? = some (e + np * (j : ℤ)) := by
  intro j
  cases j with
  | zero => simp [boundsList_zero]
  | succ j =>
    rw [boundsList_succ, ← List.cons_append, List.getLast?_concat]
    push_cast
    rfl

lemma boundsList_ne_nil (s e np : ℤ) (j : ℕ) : boundsList s e np j ≠ [] := by
  intro h
  have := boundsList_length s e np j
  rw [h] at this
  simp only [List.length_nil] at this
  omega

lemma boundsList_chain (s e np : ℤ) (hse : e = s + np) :
    ∀ j : ℕ, List.Chain' (fun a b => b = a + np) (boundsList s e np j) := by
  intro j
  induction j with
  | zero => simp [boundsList_zero, List.chain'_cons, hse]
  | succ j ih =>
    rw [boundsList_succ, List.chain'_cons']
    constructor
    · intro y hy
      rw [List.head?_append_of_ne_nil _ (boundsList_ne_nil s e np j),
        boundsList_head? s e np j] at hy
      simp only [Option.mem_def, Option.some.injEq] at hy
      subst hy
      ring
    · rw [List.chain'_append]
      refine ⟨ih, List.chain'_singleton _, ?_⟩
      intro x hx y hy
      rw [boundsList_getLast? s e np j] at hx
      simp only [Option.mem_def, Option.some.injEq] at hx hy
      rw [List.head?_cons, Option.some.injEq] at hy
      subst hx
      subst hy
      ring

lemma boundsList_mem (s e np : ℤ) :
    ∀ (j : ℕ) (x : ℤ), x ∈ boundsList s e np j →
      ∃ k : ℕ, k ≤ j ∧ (x = s - np * (k : ℤ) ∨ x = e + np * (k : ℤ)) := by
  intro j
  induction j with
  | zero =>
    intro x hx
    rw [boundsList_zero] at hx
    simp only [List.mem_cons, List.mem_singleton, List.not_mem_nil, or_false] at hx
    rcases hx with h | h
    · exact ⟨0, le_refl _, Or.inl (by subst h; push_cast; ring)⟩
    · exact ⟨0, le_refl _, Or.inr (by subst h; push_cast; ring)⟩
  | succ j ih =>
    intro x hx
    rw [boundsList_succ] at hx
    rcases List.mem_cons.mp hx with h | h
    · exact ⟨j + 1, le_refl _, Or.inl (by push_cast; exact h)⟩
    · rcases List.mem_append.mp h with h | h
      · obtain ⟨k, hk, hcase⟩ := ih x h
        exact ⟨k, by omega, hcase⟩
      · rw [List.mem_singleton] at h
        exact ⟨j + 1, le_refl _, Or.inr (by push_cast; exact h)⟩

lemma slicesLoop_spec (n np s e : ℤ) :
    ∀ (d j : ℕ), ∃ m : ℕ, j ≤ m ∧ m ≤ j + d ∧
      slicesLoop n np (2 * d) (s - np * (j : ℤ)) (e + np * (j : ℤ))
          (boundsList s e np j) = boundsList s e np m ∧
      (∀ k : ℕ, j < k → k ≤ m →
        0 ≤ s - np * (k : ℤ) ∧ e + np * (k : ℤ) < n) ∧
      (m < j + d →
        ¬(0 ≤ s - np * ((m : ℤ) + 1) ∧ e + np * ((m : ℤ) + 1) < n)) := by
  intro d
  induction d with
  | zero =>
    intro j
    exact ⟨j, le_refl _, by omega, rfl, fun k h1 h2 => by omega, fun h => by omega⟩
  | succ d ih =>
    intro j
    have hc2 : 2 * (d + 1) = 2 * d + 2 := by ring
    rw [hc2]
    have harg1 : s - np * (j : ℤ) - np = s - np * ((j : ℤ) + 1) := by ring
    have harg2 : e + np * (j : ℤ) + np = e + np * ((j : ℤ) + 1) := by ring
    by_cases hfit : 0 ≤ s - np * ((j : ℤ) + 1) ∧ e + np * ((j : ℤ) + 1) < n
    · simp only [slicesLoop]
      rw [harg1, harg2, if_neg (by omega), ← boundsList_succ]
      obtain ⟨m, h1, h2, heq, h4, h5⟩ := ih (j + 1)
      push_cast at heq
      refine ⟨m, by omega, by omega, heq, ?_, fun hlt => h5 (by omega)⟩
      intro k hk1 hk2
      rcases Nat.lt_or_ge (j + 1) k with h | h
      · exact h4 k h hk2
      · have hkj : k = j + 1 := by omega
        subst hkj
        push_cast
        exact hfit
    · simp only [slicesLoop]
      rw [harg1, harg2, if_pos (by omega)]
      exact ⟨j, le_refl _, by omega, rfl, fun k hk1 hk2 => by omega,
        fun _ => hfit⟩

lemma calculate_slices_char (axis : List ℚ)
    (center standard_deviation scaling : ℚ) (N : ℕ) (ic ihs : ℤ)
    (hodd : N % 2 = 1)
    (h1 : find_index axis center = .ok ic)
    (h2 : find_index axis
        (center + scaling * standard_deviation / (N : ℚ) / 2) = .ok ihs) :
    CalcSlicesSpec axis center standard_deviation scaling N ic ihs := by
  unfold CalcSlicesSpec
  constructor
  · intro hc
    unfold calculate_slices
    rw [if_neg (by omega), h1, h2]
    dsimp only
    rw [if_neg hc]
  · intro hc
    unfold calculate_slices
    rw [if_neg (by omega), h1, h2]
    dsimp only
    rw [if_pos hc]
    have hd : N - 1 = 2 * ((N - 1) / 2) := by omega
    obtain ⟨m, hm0, hmd, heq, h4, h5⟩ :=
      slicesLoop_spec (axis.length : ℤ)
        (2 * (if |ihs - ic| < 1 then 1 else |ihs - ic|))
        (ic - (if |ihs - ic| < 1 then 1 else |ihs - ic|))
        (ic + (if |ihs - ic| < 1 then 1 else |ihs - ic|)) ((N - 1) / 2) 0
    simp only [Nat.cast_zero, mul_zero, sub_zero, add_zero, boundsList_zero] at heq
    refine ⟨m, by omega, ?_, ?_, ?_⟩
    · rw [hd, heq]
    · intro k hk
      cases Nat.eq_zero_or_pos k with
      | inl h0 =>
        subst h0
        push_cast
        simp only [mul_zero, sub_zero, add_zero]
        exact hc
      | inr hpos => exact h4 k hpos hk
    · intro hlt
      exact h5 (by omega)

/-- C5: when the central slice already exceeds the axis bounds,
calculate_slices returns the empty boundary list with no slice length and no
error; otherwise the remaining boundaries are added symmetrically two at a
time, each shifted outward by the full slice width from the previous
boundary, and as soon as a boundary would fall outside the axis the
computation stops early and returns exactly the boundaries accepted so far
(the closed-form symmetric list of the largest in-range number of pairs
within the requested count). -/
theorem calculate_slices_central_empty_or_truncated (axis : List ℚ)
    (center standard_deviation scaling : ℚ) (N : ℕ) (ic ihs : ℤ)
    (hodd : N % 2 = 1)
    (h1 : find_index axis center = .ok ic)
    (h2 : find_index axis
        (center + scaling * standard_deviation / (N : ℚ) / 2) = .ok ihs) :
    CalcSlicesSpec axis center standard_deviation scaling N ic ihs :=
  calculate_slices_char axis center standard_deviation scaling N ic ihs hodd h1 h2

/-- Concrete evaluation of the C5 theorem: a 5-point axis where only the
central slice fits and the loop truncates immediately. -/
theorem calculate_slices_central_empty_or_truncated_witness :
    (3 : ℕ) % 2 = 1 ∧
    find_index [0, 1, 2, 3, 4] 2 = .ok 2 ∧
    find_index [0, 1, 2, 3, 4] ((2 : ℚ) + 0 * 1 / ((3 : ℕ) : ℚ) / 2) = .ok 2 ∧
    CalcSlicesSpec [0, 1, 2, 3, 4] 2 1 0 3 2 2 :=
  ⟨rfl, rfl,
   by rw [show (2 : ℚ) + 0 * 1 / ((3 : ℕ) : ℚ) / 2 = 2 from by
        rw [zero_mul, zero_div, zero_div, add_zero]]; exact rfl,
   calculate_slices_central_empty_or_truncated [0, 1, 2, 3, 4] 2 1 0 3 2 2 rfl rfl
     (by rw [show (2 : ℚ) + 0 * 1 / ((3 : ℕ) : ℚ) / 2 = 2 from by
        rw [zero_mul, zero_div, zero_div, add_zero]]; exact rfl)⟩

lemma nthZ_eq_get (xs : List ℤ) (i : ℕ) (h : i < xs.length) :
    nthZ xs i = xs.get ⟨i, h⟩ := by
  simp [nthZ, List.getD_eq_getElem xs 0 h, List.getD, List.get?_eq_getElem?,
    List.getElem?_eq_getElem h]

lemma chain'_nthZ (R : ℤ → ℤ → Prop) (l : List ℤ) (hc : List.Chain' R l) :
    ∀ i : ℕ, i + 1 < l.length → R (nthZ l i) (nthZ l (i + 1)) := by
  intro i hi
  have := List.chain'_iff_get.mp hc i (by omega)
  rw [nthZ_eq_get l i (by omega), nthZ_eq_get l (i + 1) hi]
  exact this

/-- C4: for a monotonic axis and an odd slice count, the boundary list of
calculate_slices has even length, is strictly increasing, and contains no
index outside the axis range. -/
theorem calculate_slices_invariants (axis : List ℚ)
    (center standard_deviation scaling : ℚ) (N : ℕ)
    (l : List ℤ) (h : ℤ) (sl : Option ℚ)
    (hmono : List.Sorted (· < ·) axis ∨ List.Sorted (· > ·) axis)
    (hodd : N % 2 = 1)
    (hok : calculate_slices axis center standard_deviation scaling N =
      .ok (l, h, sl)) :
    Even l.length ∧ List.Sorted (· < ·) l ∧
    ∀ b ∈ l, 0 ≤ b ∧ b < (axis.length : ℤ) := by
  cases hfi1 : find_index axis center with
  | error e =>
    unfold calculate_slices at hok
    rw [if_neg (by omega), hfi1] at hok
    exact absurd hok (by simp)
  | ok ic =>
  cases hfi2 : find_index axis
      (center + scaling * standard_deviation / (N : ℚ) / 2) with
  | error e =>
    unfold calculate_slices at hok
    rw [if_neg (by omega), hfi1, hfi2] at hok
    exact absurd hok (by simp)
  | ok ihs =>
  have hchar := calculate_slices_char axis center standard_deviation scaling
    N ic ihs hodd hfi1 hfi2
  unfold CalcSlicesSpec at hchar
  have hX1 : 1 ≤ (if |ihs - ic| < 1 then 1 else |ihs - ic|) := by
    split
    · omega
    · omega
  by_cases hfits : 0 ≤ ic - (if |ihs - ic| < 1 then 1 else |ihs - ic|) ∧
      ic + (if |ihs - ic| < 1 then 1 else |ihs - ic|) < (axis.length : ℤ)
  · obtain ⟨m, hm, heq, hks, hstop⟩ := hchar.2 hfits
    rw [heq] at hok
    have htup := Except.ok.inj hok
    simp only [Prod.ext_iff] at htup
    obtain ⟨hl, hh, hsl⟩ := htup
    subst hl
    refine ⟨?_, ?_, ?_⟩
    · rw [boundsList_length]
      exact ⟨m + 1, by ring⟩
    · have hchain := boundsList_chain
        (ic - (if |ihs - ic| < 1 then 1 else |ihs - ic|))
        (ic + (if |ihs - ic| < 1 then 1 else |ihs - ic|))
        (2 * (if |ihs - ic| < 1 then 1 else |ihs - ic|)) (by ring) m
      have hlt := hchain.imp (S := (· < ·)) (fun a b hab => by omega)
      exact List.chain'_iff_pairwise.mp hlt
    · intro b hb
      obtain ⟨k, hk, hcase⟩ := boundsList_mem _ _ _ m b hb
      have hP := hks k hk
      have hnpk : 0 ≤ 2 * (if |ihs - ic| < 1 then 1 else |ihs - ic|) * (k : ℤ) :=
        mul_nonneg (by omega) (Int.natCast_nonneg k)
      rcases hcase with hbv | hbv <;> subst hbv <;> constructor <;> omega
  · have heq := hchar.1 hfits
    rw [heq] at hok
    have htup := Except.ok.inj hok
    simp only [Prod.ext_iff] at htup
    obtain ⟨hl, hh, hsl⟩ := htup
    subst hl
    refine ⟨⟨0, rfl⟩, List.sorted_nil, fun b hb => absurd hb (List.not_mem_nil b)⟩

/-- Concrete evaluation of the C4 theorem on a 5-point axis producing the
truncated boundary list [1, 3]. -/
theorem calculate_slices_invariants_witness :
    (List.Sorted (· < ·) ([0, 1, 2, 3, 4] : List ℚ) ∨
      List.Sorted (· > ·) ([0, 1, 2, 3, 4] : List ℚ)) ∧
    (3 : ℕ) % 2 = 1 ∧
    calculate_slices [0, 1, 2, 3, 4] 2 1 0 3 =
      .ok ([1, 3], 1, some |nthQ [0, 1, 2, 3, 4] 1 - nthQ [0, 1, 2, 3, 4] 3|) ∧
    (Even ([(1 : ℤ), 3] : List ℤ).length ∧
      List.Sorted (· < ·) ([(1 : ℤ), 3] : List ℤ) ∧
      ∀ b ∈ ([(1 : ℤ), 3] : List ℤ), 0 ≤ b ∧ b < (([0, 1, 2, 3, 4] : List ℚ).length : ℤ)) := by
  have harg : (2 : ℚ) + 0 * 1 / ((3 : ℕ) : ℚ) / 2 = 2 := by
    rw [zero_mul, zero_div, zero_div, add_zero]
  have hok : calculate_slices [0, 1, 2, 3, 4] 2 1 0 3 =
      .ok ([1, 3], 1, some |nthQ [0, 1, 2, 3, 4] 1 - nthQ [0, 1, 2, 3, 4] 3|) := by
    unfold calculate_slices
    rw [harg]
    exact rfl
  exact ⟨Or.inl (by decide), rfl, hok,
    calculate_slices_invariants [0, 1, 2, 3, 4] 2 1 0 3 [1, 3] 1
      (some |nthQ [0, 1, 2, 3, 4] 1 - nthQ [0, 1, 2, 3, 4] 3|)
      (Or.inl (by decide)) rfl hok⟩

/-- C10: whenever calculate_slices returns a non-empty boundary list, every
pair of consecutive boundaries differs by exactly twice the returned
half-slice pixel count, which is itself at least 1, so the boundary list is
an arithmetic progression and the adjacent boundary pairs consumed one per
slice describe contiguous windows of equal pixel width. -/
theorem calculate_slices_equal_width (axis : List ℚ)
    (center standard_deviation scaling : ℚ) (N : ℕ)
    (l : List ℤ) (h : ℤ) (sl : Option ℚ)
    (hodd : N % 2 = 1)
    (hok : calculate_slices axis center standard_deviation scaling N =
      .ok (l, h, sl))
    (hne : l ≠ []) :
    1 ≤ h ∧ ∀ i : ℕ, i + 1 < l.length →
      nthZ l (i + 1) - nthZ l i = 2 * h := by
  cases hfi1 : find_index axis center with
  | error e =>
    unfold calculate_slices at hok
    rw [if_neg (by omega), hfi1] at hok
    exact absurd hok (by simp)
  | ok ic =>
  cases hfi2 : find_index axis
      (center + scaling * standard_deviation / (N : ℚ) / 2) with
  | error e =>
    unfold calculate_slices at hok
    rw [if_neg (by omega), hfi1, hfi2] at hok
    exact absurd hok (by simp)
  | ok ihs =>
  have hchar := calculate_slices_char axis center standard_deviation scaling
    N ic ihs hodd hfi1 hfi2
  unfold CalcSlicesSpec at hchar
  have hX1 : 1 ≤ (if |ihs - ic| < 1 then 1 else |ihs - ic|) := by
    split
    · omega
    · omega
  by_cases hfits : 0 ≤ ic - (if |ihs - ic| < 1 then 1 else |ihs - ic|) ∧
      ic + (if |ihs - ic| < 1 then 1 else |ihs - ic|) < (axis.length : ℤ)
  · obtain ⟨m, hm, heq, hks, hstop⟩ := hchar.2 hfits
    rw [heq] at hok
    have htup := Except.ok.inj hok
    simp only [Prod.ext_iff] at htup
    obtain ⟨hl, hh, hsl⟩ := htup
    subst hl
    subst hh
    refine ⟨hX1, fun i hi => ?_⟩
    have hchain := boundsList_chain
      (ic - (if |ihs - ic| < 1 then 1 else |ihs - ic|))
      (ic + (if |ihs - ic| < 1 then 1 else |ihs - ic|))
      (2 * (if |ihs - ic| < 1 then 1 else |ihs - ic|)) (by ring) m
    have := chain'_nthZ _ _ hchain i hi
    omega
  · have heq := hchar.1 hfits
    rw [heq] at hok
    have htup := Except.ok.inj hok
    simp only [Prod.ext_iff] at htup
    exact absurd htup.1.symm hne

/-- Concrete evaluation of the C10 theorem on the boundary list [1, 3] with
half-slice pixel count 1. -/
theorem calculate_slices_equal_width_witness :
    (3 : ℕ) % 2 = 1 ∧
    calculate_slices [0, 1, 2, 3, 4] 2 1 0 3 =
      .ok ([1, 3], 1, some |nthQ [0, 1, 2, 3, 4] 1 - nthQ [0, 1, 2, 3, 4] 3|) ∧
    ([(1 : ℤ), 3] : List ℤ) ≠ [] ∧
    (1 ≤ (1 : ℤ) ∧ ∀ i : ℕ, i + 1 < ([(1 : ℤ), 3] : List ℤ).length →
      nthZ [1, 3] (i + 1) - nthZ [1, 3] i = 2 * 1) := by
  have harg : (2 : ℚ) + 0 * 1 / ((3 : ℕ) : ℚ) / 2 = 2 := by
    rw [zero_mul, zero_div, zero_div, add_zero]
  have hok : calculate_slices [0, 1, 2, 3, 4] 2 1 0 3 =
      .ok ([1, 3], 1, some |nthQ [0, 1, 2, 3, 4] 1 - nthQ [0, 1, 2, 3, 4] 3|) := by
    unfold calculate_slices
    rw [harg]
    exact rfl
  exact ⟨rfl, hok, by decide,
    calculate_slices_equal_width [0, 1, 2, 3, 4] 2 1 0 3 [1, 3] 1
      (some |nthQ [0, 1, 2, 3, 4] 1 - nthQ [0, 1, 2, 3, 4] 3|) rfl hok (by decide)⟩

lemma foldl_min_sub :
    ∀ (t : List ℚ) (x a : ℚ),
      List.foldl min (x - a) (t.map (fun v => v - a)) = List.foldl min x t - a := by
  intro t
  induction t with
  | nil => intro x a; rfl
  | cons y t ih =>
    intro x a
    simp only [List.map_cons, List.foldl_cons, min_sub_sub_right]
    exact ih (min x y) a

lemma listMin_map_sub (l : List ℚ) (a x : ℚ) (h : listMin l = .ok x) :
    listMin (l.map (fun v => v - a)) = .ok (x - a) := by
  cases l with
  | nil => exact absurd h (by simp [listMin])
  | cons v t =>
    have hx : x = t.foldl min v := (Except.ok.inj h).symm
    subst hx
    simp only [List.map_cons, listMin, Except.ok.injEq]
    exact foldl_min_sub t v a

/-- C8: for every nonempty rectangular image with length-matched axes,
get_tilt computes mean_image as the intensity-weighted mean x-position with
the baseline-corrected column-sum profile as weighting, discards peak-y
samples that are not-a-number, weights each retained sample by the
baseline-corrected column intensity raised to w_order, and returns the
weighted polynomial fit of (x - mean_image, peak-y) together with
mean_image. -/
theorem get_tilt_weighted_fit (F : FloatOps) (image : List (List ℚ))
    (x_axis : List ℚ) (y_axis : List (Option ℚ)) (w_order order : ℕ)
    (pmin : ℚ)
    (hne : image ≠ [])
    (hrect : ∀ row ∈ image, row.length = (image.headD []).length)
    (hx : x_axis.length = (image.headD []).length)
    (hy : y_axis.length = image.length)
    (hmin : listMin (colSums image) = .ok pmin) :
    TiltSpec F image x_axis y_axis w_order order pmin := by
  unfold TiltSpec
  simp only [get_tilt]
  rw [if_neg (by simp [hne])]
  simp only [hmin]
  have hc0 : listMin ((colSums image).map (fun v => v - pmin)) = .ok (pmin - pmin) :=
    listMin_map_sub _ pmin pmin hmin
  rw [sub_self] at hc0
  simp only [hc0, sub_zero]

/-- Concrete evaluation of the C8 theorem on a 1 by 1 image. -/
theorem get_tilt_weighted_fit_witness :
    ([[1]] : List (List ℚ)) ≠ [] ∧
    (∀ row ∈ ([[1]] : List (List ℚ)),
      row.length = (([[1]] : List (List ℚ)).headD []).length) ∧
    ([(0 : ℚ)] : List ℚ).length = (([[1]] : List (List ℚ)).headD []).length ∧
    ([some (5 : ℚ)] : List (Option ℚ)).length = ([[1]] : List (List ℚ)).length ∧
    listMin (colSums [[1]]) = .ok (1 + 0) ∧
    TiltSpec trivialOps [[1]] [0] [some 5] 1 1 (1 + 0) :=
  ⟨by decide, by decide, rfl, rfl, rfl,
   get_tilt_weighted_fit trivialOps [[1]] [0] [some 5] 1 1 (1 + 0)
     (by decide) (by decide) rfl rfl rfl⟩
